import Mathlib

/-!
Shallow embedding of `src/ts_hashmap.c`, a fixed-capacity chained hash map
with integer keys and values.  C `int` values are modelled as `Int`; the
unsigned reinterpretation `(unsigned int) k` is modelled as `k mod 2^32`
(a `Nat`).  Each chain (`ts_entry_t` linked list) is a `List Entry`, and the
table (`ts_entry_t **table`) is a `List (List Entry)` indexed by bucket.
The operations `get`, `put`, `del` and `initmap` are translated line by
line from the source; the lock/unlock sequence each operation executes is
modelled separately as a trace of lock events (`getTrace`, `putTrace`,
`delTrace`), again following the source order of the pthread calls.
-/

set_option autoImplicit false

namespace TsHashmap

/-- The sentinel `INT_MAX` returned by `get`, `put` and `del` for "not found". -/
def INT_MAX : Int := 2147483647

/-- One `ts_entry_t` node: an integer key and value.  The `next` pointer of
the C struct is modelled by the position in the enclosing `List Entry`. -/
structure Entry where
  key : Int
  value : Int
  deriving Repr, DecidableEq

/-- The `ts_hashmap_t` struct: capacity (a C `int`), the bucket table
(list of chains), the entry count `size` (a C `int`) and the operation
counter `numOps`.  The mutexes carry no data and are modelled only in the
lock traces below. -/
structure Map where
  capacity : Int
  table : List (List Entry)
  size : Int
  numOps : Nat
  deriving Repr, DecidableEq

/-- The C cast `(unsigned int) k` for a signed 32-bit `k`: the bit pattern
reinterpreted as an unsigned integer, i.e. `k mod 2^32`. -/
def uint32 (k : Int) : Nat := (k % (2 ^ 32 : Int)).toNat

/-- A map is well formed when its capacity is a positive C `int` and the
bucket table really has `capacity` slots (as `initmap` allocates). -/
def WF (map : Map) : Prop :=
  1 ≤ map.capacity ∧ map.capacity ≤ 2 ^ 31 - 1 ∧
    map.table.length = map.capacity.toNat

/-- `initmap` (ts_hashmap.c:14-46): allocates the map, sets `numOps = 0`,
`capacity`, `size = 0`, and NULLs out `table[i]` for `0 <= i < capacity`
(no write happens when `capacity <= 0`, as the loop body never runs).
There is no validation of `capacity` anywhere in the function. -/
def initmap (capacity : Int) : Map :=
  { capacity := capacity
    table := List.replicate capacity.toNat []
    size := 0
    numOps := 0 }

/-- The index computation of `get` (ts_hashmap.c:55):
`unsigned int searchIndex = ((unsigned int) key) % map->capacity;`
(the `int` capacity is promoted to `unsigned int` by the usual
arithmetic conversions). -/
def get_searchIndex (map : Map) (key : Int) : Nat :=
  uint32 key % uint32 map.capacity

/-- The index computation of `put` (ts_hashmap.c:92), textually identical
to the one in `get`. -/
def put_searchIndex (map : Map) (key : Int) : Nat :=
  uint32 key % uint32 map.capacity

/-- The index computation of `del` (ts_hashmap.c:168), textually identical
to the one in `get`. -/
def del_searchIndex (map : Map) (key : Int) : Nat :=
  uint32 key % uint32 map.capacity

/-- The chain scan of `get` (ts_hashmap.c:62-70): walk the chain, return
`bucket->value` on the first node with `key == bucket->key`, and the
initial `returnValue = INT_MAX` when the chain runs out. -/
def getLoop (key : Int) : List Entry → Int
  | [] => INT_MAX
  | e :: rest => if key = e.key then e.value else getLoop key rest

/-- `get` (ts_hashmap.c:54-82): compute the index, scan that chain under
the bucket lock, then increment `numOps` under the op lock.  Returns the
pair (return value, updated map). -/
def get (map : Map) (key : Int) : Int × Map :=
  let searchIndex := get_searchIndex map key
  let returnValue := getLoop key (map.table.getD searchIndex [])
  (returnValue, { map with numOps := map.numOps + 1 })

/-- The chain mutation of `put` (ts_hashmap.c:102-141).  Returns
(returnValue, new chain, madeNewBucket).  Empty chain: a fresh node
becomes the head (lines 102-113).  Otherwise walk the chain: on a key
match save the old value and overwrite in place (lines 116-121); when
`bucket->next == NULL` without a match, append a fresh node (lines
123-136). -/
def putChain (key value : Int) : List Entry → Int × List Entry × Bool
  | [] => (INT_MAX, [⟨key, value⟩], true)
  | e :: rest =>
    if key = e.key then
      (e.value, ⟨key, value⟩ :: rest, false)
    else
      match rest with
      | [] => (INT_MAX, [e, ⟨key, value⟩], true)
      | _ :: _ =>
        let r := putChain key value rest
        (r.1, e :: r.2.1, r.2.2)

/-- `put` (ts_hashmap.c:91-159): compute the index, mutate that chain
under the bucket lock, then increment `size` under the size lock only if
a node was created, then increment `numOps` under the op lock. -/
def put (map : Map) (key value : Int) : Int × Map :=
  let searchIndex := put_searchIndex map key
  let r := putChain key value (map.table.getD searchIndex [])
  let map1 : Map := { map with table := map.table.set searchIndex r.2.1 }
  let map2 : Map := if r.2.2 then { map1 with size := map1.size + 1 } else map1
  (r.1, { map2 with numOps := map2.numOps + 1 })

/-- The look-one-ahead deletion loop of `del` (ts_hashmap.c:214-228),
entered with `bucket` the chain head (already known not to match) and the
rest of the chain.  Returns (returnValue, new chain, bucketWasDeleted):
on `key == bucket->next->key` the next node is spliced out and the loop
breaks. -/
def delLoop (key : Int) (bucket : Entry) : List Entry → Int × List Entry × Bool
  | [] => (INT_MAX, [bucket], false)
  | nxt :: rest =>
    if key = nxt.key then
      (nxt.value, bucket :: rest, true)
    else
      let r := delLoop key nxt rest
      (r.1, bucket :: r.2.1, r.2.2)

/-- `del` (ts_hashmap.c:167-241): increment `numOps` first, then take the
bucket lock.  Empty chain: return `INT_MAX`, no size change (lines
182-185).  Head match: splice out the head and decrement `size` (lines
188-210).  Otherwise run the look-ahead loop and decrement `size` only if
a node was deleted (lines 211-240). -/
def del (map : Map) (key : Int) : Int × Map :=
  let searchIndex := del_searchIndex map key
  let map0 : Map := { map with numOps := map.numOps + 1 }
  match map0.table.getD searchIndex [] with
  | [] => (INT_MAX, map0)
  | bucket :: rest =>
    if bucket.key = key then
      (bucket.value,
        { map0 with
            table := map0.table.set searchIndex rest
            size := map0.size - 1 })
    else
      let r := delLoop key bucket rest
      let map1 : Map := { map0 with table := map0.table.set searchIndex r.2.1 }
      (r.1, if r.2.2 then { map1 with size := map1.size - 1 } else map1)

/-- One public operation, for stating invariants over call sequences. -/
inductive Op where
  | get (key : Int)
  | put (key value : Int)
  | del (key : Int)
  deriving Repr, DecidableEq

/-- Apply one operation, discarding the return value. -/
def applyOp (map : Map) : Op → Map
  | .get k => (get map k).2
  | .put k v => (put map k v).2
  | .del k => (del map k).2

/-- Apply a sequence of operations in order. -/
def runOps (map : Map) : List Op → Map
  | [] => map
  | op :: ops => runOps (applyOp map op) ops

/-! Lock traces.  The mutexes carry no data, so for the locking claims we
record the exact sequence of `pthread_mutex_lock`/`unlock` calls each
operation makes, following the source order. -/

/-- The guards of the map: one per bucket (`bucketLocks[i]`), plus the
size guard (`sizeLock`) and the op-count guard (`opLock`). -/
inductive Guard where
  | bucket (i : Nat)
  | sizeGuard
  | opGuard
  deriving Repr, DecidableEq

/-- A single lock or unlock call on one guard. -/
inductive LockEvent where
  | lock (g : Guard)
  | unlock (g : Guard)
  deriving Repr, DecidableEq

/-- The lock/unlock calls `get` makes, in source order
(ts_hashmap.c:59, 73, 76, 78): bucket guard taken and released, then the
op guard. -/
def getTrace (map : Map) (key : Int) : List LockEvent :=
  let i := get_searchIndex map key
  [.lock (.bucket i), .unlock (.bucket i), .lock .opGuard, .unlock .opGuard]

/-- The lock/unlock calls `put` makes, in source order
(ts_hashmap.c:97, 143, 147, 149, 153, 155): bucket guard taken and
released, then the size guard (only when a node was allocated), then the
op guard. -/
def putTrace (map : Map) (key value : Int) : List LockEvent :=
  let i := put_searchIndex map key
  let r := putChain key value (map.table.getD i [])
  [.lock (.bucket i), .unlock (.bucket i)]
    ++ (if r.2.2 then [.lock .sizeGuard, .unlock .sizeGuard] else [])
    ++ [.lock .opGuard, .unlock .opGuard]

/-- The lock/unlock calls `del` makes, in source order: op guard first
(ts_hashmap.c:172, 174), then the bucket guard (line 177).  Empty chain:
the bucket guard is released at line 183.  Head match: bucket guard
released at line 202 before the size guard (lines 205-207).  Otherwise
the look-ahead loop runs and, when it deleted a node, the size guard is
taken at lines 232-234 while the bucket guard is still held; the bucket
guard is only released afterwards, at line 238. -/
def delTrace (map : Map) (key : Int) : List LockEvent :=
  let i := del_searchIndex map key
  [.lock .opGuard, .unlock .opGuard, .lock (.bucket i)]
    ++ match map.table.getD i [] with
      | [] => [.unlock (.bucket i)]
      | bucket :: rest =>
        if bucket.key = key then
          [.unlock (.bucket i), .lock .sizeGuard, .unlock .sizeGuard]
        else
          (if (delLoop key bucket rest).2.2 then
            [.lock .sizeGuard, .unlock .sizeGuard]
          else []) ++ [.unlock (.bucket i)]

/-- `del` takes its mid-chain deletion branch on this map and key: the
chain is non-empty, the head does not match, and a later node does. -/
def delMidChain (map : Map) (key : Int) : Bool :=
  match map.table.getD (del_searchIndex map key) [] with
  | [] => false
  | bucket :: rest =>
    if bucket.key = key then false else (delLoop key bucket rest).2.2

/-- Tracks the number of currently held guards along a trace; `true` when
no lock acquisition ever brings the count of held guards above one. -/
def noTwoGuardsAux (held : Nat) : List LockEvent → Bool
  | [] => true
  | .lock _ :: rest => (held == 0) && noTwoGuardsAux (held + 1) rest
  | .unlock _ :: rest => noTwoGuardsAux (held - 1) rest

/-- A trace never holds two guards simultaneously. -/
def noTwoGuards (tr : List LockEvent) : Bool := noTwoGuardsAux 0 tr

/-! Chain keys and the reachable-state invariant. -/

/-- The keys stored along a chain, in chain order. -/
def chainKeys (c : List Entry) : List Int := c.map Entry.key

/-- The invariant of claim C5 on a map state: the table has exactly
`capacity` slots, every entry sits in the chain at the bucket index given
by the unsigned reinterpretation of its key mod capacity, no key repeats
within a chain, and `size` counts all entries reachable from all buckets. -/
def Inv (map : Map) : Prop :=
  map.table.length = map.capacity.toNat ∧
  (∀ i, i < map.table.length →
    ∀ e ∈ map.table.getD i [], uint32 e.key % map.capacity.toNat = i) ∧
  (∀ i, i < map.table.length → (chainKeys (map.table.getD i [])).Nodup) ∧
  map.size = ((map.table.map List.length).sum : Int)

@[simp]
theorem chainKeys_nil : chainKeys [] = [] := rfl

@[simp]
theorem chainKeys_cons (e : Entry) (c : List Entry) :
    chainKeys (e :: c) = e.key :: chainKeys c := rfl

/-- Unfolding equation for `putChain` on a chain of length at least two,
refolding the nested match into the recursive call. -/
theorem putChain_cons_cons (key value : Int) (e nxt : Entry) (rest2 : List Entry) :
    putChain key value (e :: nxt :: rest2) =
      if key = e.key then (e.value, ⟨key, value⟩ :: nxt :: rest2, false)
      else
        ((putChain key value (nxt :: rest2)).1,
          e :: (putChain key value (nxt :: rest2)).2.1,
          (putChain key value (nxt :: rest2)).2.2) := rfl

/-- The value `put` returns is exactly what `get` would have returned on
the chain beforehand: the first matching value, or `INT_MAX`. -/
theorem putChain_fst (key value : Int) (c : List Entry) :
    (putChain key value c).1 = getLoop key c := by
  induction c with
  | nil => rfl
  | cons e rest ih =>
    by_cases h : key = e.key
    · simp [putChain, getLoop, h]
    · cases rest with
      | nil => simp [putChain, getLoop, h]
      | cons nxt rest2 =>
        rw [putChain_cons_cons]
        simp [getLoop, h, ih]

/-- After `putChain`, scanning for the key finds the freshly stored value. -/
theorem getLoop_putChain (key value : Int) (c : List Entry) :
    getLoop key (putChain key value c).2.1 = value := by
  induction c with
  | nil => simp [putChain, getLoop]
  | cons e rest ih =>
    by_cases h : key = e.key
    · simp [putChain, getLoop, h]
    · cases rest with
      | nil => simp [putChain, getLoop, h]
      | cons nxt rest2 =>
        rw [putChain_cons_cons]
        simp [getLoop, h, ih]

/-- `putChain` allocates a node exactly when the key was absent. -/
theorem putChain_flag (key value : Int) (c : List Entry) :
    (putChain key value c).2.2 = true ↔ key ∉ chainKeys c := by
  induction c with
  | nil => simp [putChain]
  | cons e rest ih =>
    by_cases h : key = e.key
    · simp [putChain, h]
    · cases rest with
      | nil => simp [putChain, h, Ne.symm h]
      | cons nxt rest2 =>
        rw [putChain_cons_cons, if_neg h]
        simp only [chainKeys_cons, List.mem_cons]
        rw [ih]
        simp only [chainKeys_cons, List.mem_cons]
        constructor
        · intro hk hor
          rcases hor with hor | hor
          · exact h hor
          · exact hk hor
        · intro hk hmem
          exact hk (Or.inr hmem)

/-- The keys after `putChain`: unchanged on replacement, the key appended
on insertion. -/
theorem chainKeys_putChain (key value : Int) (c : List Entry) :
    chainKeys (putChain key value c).2.1 =
      if key ∈ chainKeys c then chainKeys c else chainKeys c ++ [key] := by
  induction c with
  | nil => simp [putChain]
  | cons e rest ih =>
    by_cases h : key = e.key
    · simp [putChain, h]
    · cases rest with
      | nil => simp [putChain, h, Ne.symm h]
      | cons nxt rest2 =>
        rw [putChain_cons_cons, if_neg h]
        simp only [chainKeys_cons, List.mem_cons]
        rw [ih]
        by_cases hmem : key ∈ chainKeys (nxt :: rest2)
        · simp only [chainKeys_cons, List.mem_cons] at hmem
          simp [hmem, Ne.symm h]
        · simp only [chainKeys_cons, List.mem_cons] at hmem
          push_neg at hmem
          simp [hmem.1, hmem.2, h]

/-- Every node of the chain after `putChain` is an old node or the fresh
`(key, value)` node. -/
theorem putChain_mem (key value : Int) (c : List Entry) :
    ∀ e ∈ (putChain key value c).2.1, e ∈ c ∨ e = ⟨key, value⟩ := by
  induction c with
  | nil => simp [putChain]
  | cons e rest ih =>
    by_cases h : key = e.key
    · intro x hx
      simp only [putChain, if_pos h] at hx
      rcases List.mem_cons.mp hx with hx | hx
      · exact Or.inr (by simp [hx])
      · exact Or.inl (List.mem_cons_of_mem _ hx)
    · cases rest with
      | nil =>
        intro x hx
        simp only [putChain, if_neg h] at hx
        rcases List.mem_cons.mp hx with hx | hx
        · exact Or.inl (by simp [hx])
        · simp only [List.mem_singleton] at hx
          exact Or.inr (by simp [hx])
      | cons nxt rest2 =>
        intro x hx
        rw [putChain_cons_cons, if_neg h] at hx
        simp only [] at hx
        rcases List.mem_cons.mp hx with hx | hx
        · exact Or.inl (by simp [hx])
        · rcases ih x hx with hx | hx
          · exact Or.inl (List.mem_cons_of_mem _ hx)
          · exact Or.inr hx

/-- `putChain` grows the chain by one node exactly when it allocated one. -/
theorem putChain_length (key value : Int) (c : List Entry) :
    (putChain key value c).2.1.length =
      c.length + (if (putChain key value c).2.2 then 1 else 0) := by
  induction c with
  | nil => simp [putChain]
  | cons e rest ih =>
    by_cases h : key = e.key
    · simp [putChain, h]
    · cases rest with
      | nil => simp [putChain, h]
      | cons nxt rest2 =>
        rw [putChain_cons_cons, if_neg h]
        dsimp only
        have h2 := ih
        simp only [List.length_cons] at h2 ⊢
        omega

/-- The value `delLoop` returns is what `get` would return on the tail of
the chain. -/
theorem delLoop_fst (key : Int) (b : Entry) (rest : List Entry) :
    (delLoop key b rest).1 = getLoop key rest := by
  induction rest generalizing b with
  | nil => rfl
  | cons nxt rest2 ih =>
    by_cases h : key = nxt.key
    · simp [delLoop, getLoop, h]
    · simp [delLoop, getLoop, h, ih]

/-- `delLoop` deletes a node exactly when the key occurs in the tail. -/
theorem delLoop_flag (key : Int) (b : Entry) (rest : List Entry) :
    (delLoop key b rest).2.2 = true ↔ key ∈ chainKeys rest := by
  induction rest generalizing b with
  | nil => simp [delLoop]
  | cons nxt rest2 ih =>
    by_cases h : key = nxt.key
    · simp [delLoop, h]
    · simp [delLoop, h, ih, Ne.symm h]

/-- The keys after `delLoop`: the head key followed by the tail keys with
the first occurrence of the searched key erased. -/
theorem chainKeys_delLoop (key : Int) (b : Entry) (rest : List Entry) :
    chainKeys (delLoop key b rest).2.1 = b.key :: (chainKeys rest).erase key := by
  induction rest generalizing b with
  | nil => rfl
  | cons nxt rest2 ih =>
    by_cases h : key = nxt.key
    · simp [delLoop, h]
    · have hne : ¬ (nxt.key == key) = true := by
        simp
        exact fun hh => h hh.symm
      simp only [delLoop, if_neg h, chainKeys_cons, List.erase_cons_tail hne]
      rw [ih nxt]

/-- The chain after `delLoop` is a sublist of the original chain. -/
theorem delLoop_sublist (key : Int) (b : Entry) (rest : List Entry) :
    List.Sublist (delLoop key b rest).2.1 (b :: rest) := by
  induction rest generalizing b with
  | nil => simp [delLoop]
  | cons nxt rest2 ih =>
    by_cases h : key = nxt.key
    · simp only [delLoop, if_pos h]
      exact List.Sublist.cons₂ b (List.sublist_cons_self nxt rest2)
    · simp only [delLoop, if_neg h]
      exact List.Sublist.cons₂ b (ih nxt)

/-- `delLoop` shortens the chain by one node exactly when it deleted one. -/
theorem delLoop_length (key : Int) (b : Entry) (rest : List Entry) :
    (delLoop key b rest).2.1.length +
      (if (delLoop key b rest).2.2 then 1 else 0) = rest.length + 1 := by
  induction rest generalizing b with
  | nil => simp [delLoop]
  | cons nxt rest2 ih =>
    by_cases h : key = nxt.key
    · simp [delLoop, h]
    · simp only [delLoop, if_neg h, List.length_cons]
      have := ih nxt
      omega

/-- Scanning for an absent key yields the sentinel. -/
theorem getLoop_eq_of_not_mem (key : Int) (c : List Entry)
    (h : key ∉ chainKeys c) : getLoop key c = INT_MAX := by
  induction c with
  | nil => rfl
  | cons e rest ih =>
    simp only [chainKeys_cons, List.mem_cons] at h
    push_neg at h
    simp [getLoop, h.1, ih h.2]

/-- A positive C `int` capacity is unchanged by the unsigned cast. -/
theorem uint32_of_bounds (c : Int) (h1 : 1 ≤ c) (h2 : c ≤ 2 ^ 31 - 1) :
    uint32 c = c.toNat := by
  unfold uint32
  rw [Int.emod_eq_of_lt (by omega) (by omega)]

/-- On a well-formed map the computed bucket index is a valid table slot. -/
theorem searchIndex_lt (map : Map) (key : Int) (h : WF map) :
    get_searchIndex map key < map.table.length := by
  obtain ⟨h1, h2, h3⟩ := h
  unfold get_searchIndex
  rw [uint32_of_bounds map.capacity h1 h2, h3]
  apply Nat.mod_lt
  omega

/-- Reading back the slot just written. -/
theorem getD_set_self {α : Type} (l : List α) (i : Nat) (a d : α)
    (h : i < l.length) : (l.set i a).getD i d = a := by
  rw [List.getD_eq_getElem _ _ (by simpa using h)]
  exact List.getElem_set_self _

/-- Setting one slot changes the total length sum by that slot's change. -/
theorem sum_map_length_set (l : List (List Entry)) (i : Nat) (a : List Entry)
    (h : i < l.length) :
    ((l.set i a).map List.length).sum + (l.getD i []).length
      = (l.map List.length).sum + a.length := by
  induction l generalizing i with
  | nil => simp at h
  | cons x xs ih =>
    cases i with
    | zero =>
      simp only [List.set_cons_zero, List.map_cons, List.sum_cons,
        List.getD_cons_zero]
      omega
    | succ j =>
      simp only [List.length_cons, Nat.succ_lt_succ_iff] at h
      simp only [List.set_cons_succ, List.map_cons, List.sum_cons,
        List.getD_cons_succ]
      have := ih j h
      omega

/-! Generic list access lemmas used below. -/

/-- Reading a slot other than the one just written. -/
theorem getD_set_ne {α : Type} (l : List α) (i j : Nat) (a d : α)
    (h : i ≠ j) : (l.set i a).getD j d = l.getD j d := by
  simp [List.getD_eq_getElem?_getD, List.getElem?_set_ne h]

/-- Every slot of a freshly replicated table holds the default chain. -/
theorem getD_replicate {α : Type} (n i : Nat) (a d : α) (h : i < n) :
    (List.replicate n a).getD i d = a := by
  simp [List.getD_eq_getElem?_getD, List.getElem?_replicate, h]

/-- A slot read with a valid index is a member of the table. -/
theorem getD_mem {α : Type} (l : List α) (i : Nat) (d : α)
    (h : i < l.length) : l.getD i d ∈ l := by
  rw [List.getD_eq_getElem _ _ h]
  exact List.getElem_mem h

/-! Characterisations of the three operations at the map level. -/

/-- The three index computations agree definitionally. -/
theorem searchIndex_eq (map : Map) (key : Int) :
    get_searchIndex map key = put_searchIndex map key ∧
      put_searchIndex map key = del_searchIndex map key :=
  ⟨rfl, rfl⟩

/-- What `get` returns. -/
theorem get_fst (map : Map) (key : Int) :
    (get map key).1 = getLoop key (map.table.getD (get_searchIndex map key) []) :=
  rfl

/-- The map `get` leaves behind. -/
theorem get_snd (map : Map) (key : Int) :
    (get map key).2 = { map with numOps := map.numOps + 1 } :=
  rfl

/-- What `put` returns: the first value previously stored under the key,
or the sentinel. -/
theorem put_fst (map : Map) (key value : Int) :
    (put map key value).1 = getLoop key (map.table.getD (put_searchIndex map key) []) :=
  putChain_fst key value _

/-- The map `put` leaves behind, in one closed form. -/
theorem put_snd (map : Map) (key value : Int) :
    (put map key value).2 =
      { capacity := map.capacity
        table := map.table.set (put_searchIndex map key)
          (putChain key value (map.table.getD (put_searchIndex map key) [])).2.1
        size := map.size +
          (if (putChain key value (map.table.getD (put_searchIndex map key) [])).2.2
            then 1 else 0)
        numOps := map.numOps + 1 } := by
  unfold put
  dsimp only
  by_cases hf : (putChain key value (map.table.getD (put_searchIndex map key) [])).2.2 = true
  · simp only [if_pos hf]
  · simp only [if_neg hf]
    simp

/-- What `del` returns: the first value stored under the key in its
bucket chain, or the sentinel. -/
theorem del_fst (map : Map) (key : Int) :
    (del map key).1 = getLoop key (map.table.getD (del_searchIndex map key) []) := by
  unfold del
  cases hc : map.table.getD (del_searchIndex map key) [] with
  | nil =>
    have hc2 := hc
    simp only [List.getD_eq_getElem?_getD] at hc2
    simp [hc, hc2, getLoop]
  | cons bucket rest =>
    have hc2 := hc
    simp only [List.getD_eq_getElem?_getD] at hc2
    by_cases h : bucket.key = key
    · simp [hc, hc2, h, getLoop]
    · have hne : ¬ key = bucket.key := fun hh => h hh.symm
      simp [hc, hc2, h, getLoop, hne, delLoop_fst]

/-- The map `del` leaves behind when the bucket chain is empty. -/
theorem del_snd_nil (map : Map) (key : Int)
    (h : map.table.getD (del_searchIndex map key) [] = []) :
    (del map key).2 = { map with numOps := map.numOps + 1 } := by
  have h2 := h
  simp only [List.getD_eq_getElem?_getD] at h2
  unfold del
  simp [h2]

/-- The map `del` leaves behind when the chain head matches. -/
theorem del_snd_head (map : Map) (key : Int) (bucket : Entry) (rest : List Entry)
    (h : map.table.getD (del_searchIndex map key) [] = bucket :: rest)
    (hk : bucket.key = key) :
    (del map key).2 =
      { map with
          table := map.table.set (del_searchIndex map key) rest
          size := map.size - 1
          numOps := map.numOps + 1 } := by
  have h2 := h
  simp only [List.getD_eq_getElem?_getD] at h2
  unfold del
  simp [h2, hk]

/-- The map `del` leaves behind when the chain head does not match: the
look-ahead loop rewrites the chain and `size` drops only on deletion. -/
theorem del_snd_tail (map : Map) (key : Int) (bucket : Entry) (rest : List Entry)
    (h : map.table.getD (del_searchIndex map key) [] = bucket :: rest)
    (hk : ¬ bucket.key = key) :
    (del map key).2 =
      { map with
          table := map.table.set (del_searchIndex map key)
            (delLoop key bucket rest).2.1
          size := map.size -
            (if (delLoop key bucket rest).2.2 then 1 else 0)
          numOps := map.numOps + 1 } := by
  have h2 := h
  simp only [List.getD_eq_getElem?_getD] at h2
  unfold del
  dsimp only
  by_cases hf : (delLoop key bucket rest).2.2 = true
  · simp [h2, hk, if_pos hf]
  · simp [h2, hk, if_neg hf]

/-- The stored key is present in the chain after `putChain`. -/
theorem mem_chainKeys_putChain (key value : Int) (c : List Entry) :
    key ∈ chainKeys (putChain key value c).2.1 := by
  rw [chainKeys_putChain]
  by_cases h : key ∈ chainKeys c <;> simp [h]

/-- `putChain` keeps chain keys duplicate-free. -/
theorem nodup_chainKeys_putChain (key value : Int) (c : List Entry)
    (h : (chainKeys c).Nodup) : (chainKeys (putChain key value c).2.1).Nodup := by
  rw [chainKeys_putChain]
  by_cases hm : key ∈ chainKeys c
  · simp [hm, h]
  · simp [hm, List.nodup_append, h]

/-- `put` preserves well-formedness. -/
theorem WF_put (map : Map) (key value : Int) (h : WF map) :
    WF (put map key value).2 := by
  obtain ⟨h1, h2, h3⟩ := h
  rw [put_snd]
  exact ⟨h1, h2, by simpa using h3⟩

/-- `get` preserves well-formedness. -/
theorem WF_get (map : Map) (key : Int) (h : WF map) : WF (get map key).2 := h

/-- `del` preserves well-formedness. -/
theorem WF_del (map : Map) (key : Int) (h : WF map) : WF (del map key).2 := by
  obtain ⟨h1, h2, h3⟩ := h
  cases hc : map.table.getD (del_searchIndex map key) [] with
  | nil => rw [del_snd_nil map key hc]; exact ⟨h1, h2, h3⟩
  | cons bucket rest =>
    by_cases hk : bucket.key = key
    · rw [del_snd_head map key bucket rest hc hk]
      exact ⟨h1, h2, by simpa using h3⟩
    · rw [del_snd_tail map key bucket rest hc hk]
      exact ⟨h1, h2, by simpa using h3⟩

/-! Preservation of the reachable-state invariant. -/

/-- `get` changes neither the table nor `size`, so the invariant carries
over unchanged. -/
theorem Inv_get (map : Map) (key : Int) (h : Inv map) : Inv (get map key).2 := h

/-- The invariant holds on a freshly constructed map: all chains empty,
`size` zero. -/
theorem Inv_initmap (capacity : Int) : Inv (initmap capacity) := by
  unfold Inv initmap
  dsimp only
  refine ⟨by simp, ?_, ?_, by simp⟩
  · intro i hi e he
    simp only [List.length_replicate] at hi
    rw [getD_replicate _ _ _ _ hi] at he
    simp at he
  · intro i hi
    simp only [List.length_replicate] at hi
    rw [getD_replicate _ _ _ _ hi]
    simp [chainKeys]

/-- `put` preserves the invariant on maps with a valid C `int` capacity. -/
theorem Inv_put (map : Map) (key value : Int)
    (hcap1 : 1 ≤ map.capacity) (hcap2 : map.capacity ≤ 2 ^ 31 - 1)
    (h : Inv map) : Inv (put map key value).2 := by
  obtain ⟨hlen, hhash, hnd, hsize⟩ := h
  rw [put_snd]
  set i := put_searchIndex map key with hi
  have hidx : i = uint32 key % map.capacity.toNat := by
    rw [hi]
    unfold put_searchIndex
    rw [uint32_of_bounds map.capacity hcap1 hcap2]
  have hlt : i < map.table.length := by
    rw [hlen, hidx]
    exact Nat.mod_lt _ (by omega)
  refine ⟨by simpa using hlen, ?_, ?_, ?_⟩
  · intro j hj e he
    simp only [List.length_set] at hj
    by_cases hij : i = j
    · subst hij
      rw [getD_set_self _ _ _ _ hlt] at he
      rcases putChain_mem key value _ e he with hold | hnew
      · exact hhash i hlt e hold
      · rw [hnew]
        exact hidx.symm
    · rw [getD_set_ne _ _ _ _ _ hij] at he
      exact hhash j hj e he
  · intro j hj
    simp only [List.length_set] at hj
    by_cases hij : i = j
    · subst hij
      rw [getD_set_self _ _ _ _ hlt]
      exact nodup_chainKeys_putChain key value _ (hnd i hlt)
    · rw [getD_set_ne _ _ _ _ _ hij]
      exact hnd j hj
  · have hsum := sum_map_length_set map.table i
      ((putChain key value (map.table.getD i [])).2.1) hlt
    have hplen := putChain_length key value (map.table.getD i [])
    cases hf : (putChain key value (map.table.getD i [])).2.2 with
    | false =>
      rw [hf] at hplen
      simp only [hf] at *
      simp only [Bool.false_eq_true, if_false] at hplen ⊢
      omega
    | true =>
      rw [hf] at hplen
      simp only [hf, if_true] at hplen ⊢
      omega

/-- `del` preserves the invariant on maps with a valid C `int` capacity. -/
theorem Inv_del (map : Map) (key : Int)
    (hcap1 : 1 ≤ map.capacity) (hcap2 : map.capacity ≤ 2 ^ 31 - 1)
    (h : Inv map) : Inv (del map key).2 := by
  obtain ⟨hlen, hhash, hnd, hsize⟩ := h
  have hlt : del_searchIndex map key < map.table.length := by
    rw [hlen]
    unfold del_searchIndex
    rw [uint32_of_bounds map.capacity hcap1 hcap2]
    exact Nat.mod_lt _ (by omega)
  cases hc : map.table.getD (del_searchIndex map key) [] with
  | nil =>
    rw [del_snd_nil map key hc]
    exact ⟨hlen, hhash, hnd, hsize⟩
  | cons bucket rest =>
    by_cases hk : bucket.key = key
    · rw [del_snd_head map key bucket rest hc hk]
      unfold Inv
      dsimp only
      refine ⟨by simpa using hlen, ?_, ?_, ?_⟩
      · intro j hj e he
        simp only [List.length_set] at hj
        by_cases hij : del_searchIndex map key = j
        · subst hij
          rw [getD_set_self _ _ _ _ hlt] at he
          exact hhash _ hlt e (by rw [hc]; exact List.mem_cons_of_mem _ he)
        · rw [getD_set_ne _ _ _ _ _ hij] at he
          exact hhash j hj e he
      · intro j hj
        simp only [List.length_set] at hj
        by_cases hij : del_searchIndex map key = j
        · subst hij
          rw [getD_set_self _ _ _ _ hlt]
          have hh := hnd _ hlt
          rw [hc] at hh
          exact List.Nodup.of_cons hh
        · rw [getD_set_ne _ _ _ _ _ hij]
          exact hnd j hj
      · have hsum := sum_map_length_set map.table (del_searchIndex map key) rest hlt
        rw [hc] at hsum
        simp only [List.length_cons] at hsum
        omega
    · rw [del_snd_tail map key bucket rest hc hk]
      have hsub := delLoop_sublist key bucket rest
      unfold Inv
      dsimp only
      refine ⟨by simpa using hlen, ?_, ?_, ?_⟩
      · intro j hj e he
        simp only [List.length_set] at hj
        by_cases hij : del_searchIndex map key = j
        · subst hij
          rw [getD_set_self _ _ _ _ hlt] at he
          have hmem : e ∈ bucket :: rest := hsub.subset he
          exact hhash _ hlt e (by rw [hc]; exact hmem)
        · rw [getD_set_ne _ _ _ _ _ hij] at he
          exact hhash j hj e he
      · intro j hj
        simp only [List.length_set] at hj
        by_cases hij : del_searchIndex map key = j
        · subst hij
          rw [getD_set_self _ _ _ _ hlt]
          have hkeys : List.Sublist (chainKeys (delLoop key bucket rest).2.1)
              (chainKeys (bucket :: rest)) := hsub.map Entry.key
          have hh := hnd _ hlt
          rw [hc] at hh
          exact hh.sublist hkeys
        · rw [getD_set_ne _ _ _ _ _ hij]
          exact hnd j hj
      · have hsum := sum_map_length_set map.table (del_searchIndex map key)
          ((delLoop key bucket rest).2.1) hlt
        rw [hc] at hsum
        have hdlen := delLoop_length key bucket rest
        simp only [List.length_cons] at hsum
        rcases Bool.eq_false_or_eq_true ((delLoop key bucket rest).2.2) with hf | hf
        · rw [hf] at hdlen ⊢
          rw [if_pos rfl]
          rw [if_pos rfl] at hdlen
          omega
        · rw [hf] at hdlen ⊢
          rw [if_neg (by simp)]
          rw [if_neg (by simp)] at hdlen
          omega

/-- Each operation leaves `capacity` unchanged. -/
theorem applyOp_capacity (map : Map) (op : Op) :
    (applyOp map op).capacity = map.capacity := by
  cases op with
  | get k => rfl
  | put k v =>
    show (put map k v).2.capacity = map.capacity
    rw [put_snd]
  | del k =>
    show (del map k).2.capacity = map.capacity
    cases hc : map.table.getD (del_searchIndex map k) [] with
    | nil => rw [del_snd_nil map k hc]
    | cons b rest =>
      by_cases hk : b.key = k
      · rw [del_snd_head map k b rest hc hk]
      · rw [del_snd_tail map k b rest hc hk]

/-- Each operation increments `numOps` exactly once. -/
theorem applyOp_numOps (map : Map) (op : Op) :
    (applyOp map op).numOps = map.numOps + 1 := by
  cases op with
  | get k => rfl
  | put k v =>
    show (put map k v).2.numOps = map.numOps + 1
    rw [put_snd]
  | del k =>
    show (del map k).2.numOps = map.numOps + 1
    cases hc : map.table.getD (del_searchIndex map k) [] with
    | nil => rw [del_snd_nil map k hc]
    | cons b rest =>
      by_cases hk : b.key = k
      · rw [del_snd_head map k b rest hc hk]
      · rw [del_snd_tail map k b rest hc hk]

/-- Each operation preserves the invariant. -/
theorem Inv_applyOp (map : Map) (op : Op)
    (hcap1 : 1 ≤ map.capacity) (hcap2 : map.capacity ≤ 2 ^ 31 - 1)
    (h : Inv map) : Inv (applyOp map op) := by
  cases op with
  | get k => exact Inv_get map k h
  | put k v => exact Inv_put map k v hcap1 hcap2 h
  | del k => exact Inv_del map k hcap1 hcap2 h

/-- A whole run of operations leaves `capacity` unchanged. -/
theorem runOps_capacity (map : Map) (ops : List Op) :
    (runOps map ops).capacity = map.capacity := by
  induction ops generalizing map with
  | nil => rfl
  | cons op ops ih =>
    show (runOps (applyOp map op) ops).capacity = map.capacity
    rw [ih, applyOp_capacity]

/-- `numOps` counts exactly the operations applied. -/
theorem runOps_numOps (map : Map) (ops : List Op) :
    (runOps map ops).numOps = map.numOps + ops.length := by
  induction ops generalizing map with
  | nil => rfl
  | cons op ops ih =>
    show (runOps (applyOp map op) ops).numOps = map.numOps + (op :: ops).length
    rw [ih, applyOp_numOps]
    simp only [List.length_cons]
    omega

/-- A whole run of operations preserves the invariant. -/
theorem Inv_runOps (map : Map) (ops : List Op)
    (hcap1 : 1 ≤ map.capacity) (hcap2 : map.capacity ≤ 2 ^ 31 - 1)
    (h : Inv map) : Inv (runOps map ops) := by
  induction ops generalizing map with
  | nil => exact h
  | cons op ops ih =>
    show Inv (runOps (applyOp map op) ops)
    exact ih (applyOp map op)
      (by rw [applyOp_capacity]; exact hcap1)
      (by rw [applyOp_capacity]; exact hcap2)
      (Inv_applyOp map op hcap1 hcap2 h)

/-- Shared helper: on a well-formed map, a `get` of a key right after a
`put` of that key returns the value just stored. -/
theorem get_after_put (map : Map) (key value : Int) (h : WF map) :
    (get (put map key value).2 key).1 = value := by
  have hlt : put_searchIndex map key < map.table.length := searchIndex_lt map key h
  rw [get_fst]
  have hidx : get_searchIndex (put map key value).2 key = put_searchIndex map key := by
    unfold get_searchIndex put_searchIndex
    rw [put_snd]
  have htab : (put map key value).2.table
      = map.table.set (put_searchIndex map key)
        (putChain key value (map.table.getD (put_searchIndex map key) [])).2.1 := by
    rw [put_snd]
  rw [hidx, htab, getD_set_self _ _ _ _ hlt]
  exact getLoop_putChain key value _

/-- C1: for every key and value, `put(map, k, v)` followed by `get(map, k)`
on the resulting map returns v, on any well-formed map — whether the key
was previously absent, present with another value, or colliding with
other keys in its bucket. -/
theorem C1_put_get_roundtrip (map : Map) (key value : Int) (h : WF map) :
    (get (put map key value).2 key).1 = value :=
  get_after_put map key value h

/-- Witness for C1 at a concrete input: the spec example `put(5,100)` then
`get(5)` on a capacity-4 map. -/
theorem C1_witness :
    WF (initmap 4) ∧ (get (put (initmap 4) 5 100).2 5).1 = 100 :=
  ⟨⟨by decide, by decide, by decide⟩,
    C1_put_get_roundtrip (initmap 4) 5 100 ⟨by decide, by decide, by decide⟩⟩

/-- C2 counterexample: deleting key 2 from a capacity-1 map whose only
chain is [(1,10), (2,20)] takes `del`'s mid-chain branch; its lock trace
acquires the size guard (ts_hashmap.c:232) while the bucket guard, taken
at line 177, is not released until line 238 — so this execution holds
two guards simultaneously, contradicting the claim. -/
theorem C2_counterexample :
    noTwoGuards (delTrace
      { capacity := 1, table := [[⟨1, 10⟩, ⟨2, 20⟩]], size := 2, numOps := 0 }
      2) = false := by
  decide

/-- C2 amended: `get` and `put` never hold two guards at once, and `del`
avoids it in its empty-bucket, chain-head and miss branches; but in the
mid-chain deletion branch (and only there) `del` acquires the size guard
while still holding the bucket guard. -/
theorem C2_amended_lock_discipline (map : Map) (key value : Int) :
    noTwoGuards (getTrace map key) = true ∧
    noTwoGuards (putTrace map key value) = true ∧
    (noTwoGuards (delTrace map key) = true ↔ delMidChain map key = false) := by
  refine ⟨rfl, ?_, ?_⟩
  · unfold putTrace
    dsimp only
    rcases Bool.eq_false_or_eq_true
        ((putChain key value (map.table.getD (put_searchIndex map key) [])).2.2)
      with hf | hf <;> rw [hf] <;> rfl
  · unfold delTrace delMidChain
    dsimp only
    cases hc : map.table.getD (del_searchIndex map key) [] with
    | nil => simp [noTwoGuards, noTwoGuardsAux]
    | cons bucket rest =>
      by_cases hb : bucket.key = key
      · simp only [if_pos hb]
        simp [noTwoGuards, noTwoGuardsAux]
      · simp only [if_neg hb]
        rcases Bool.eq_false_or_eq_true ((delLoop key bucket rest).2.2)
          with hf | hf <;> rw [hf] <;> simp [noTwoGuards, noTwoGuardsAux]

/-- C7: all three operations compute the same bucket index, equal to the
key's bit pattern reinterpreted as an unsigned integer taken mod capacity,
and the index is always a valid slot in [0, capacity). -/
theorem C7_index_unsigned_mod (map : Map) (key : Int)
    (h1 : 1 ≤ map.capacity) (h2 : map.capacity ≤ 2 ^ 31 - 1) :
    get_searchIndex map key = put_searchIndex map key ∧
    put_searchIndex map key = del_searchIndex map key ∧
    get_searchIndex map key = uint32 key % map.capacity.toNat ∧
    get_searchIndex map key < map.capacity.toNat := by
  refine ⟨rfl, rfl, ?_, ?_⟩
  · unfold get_searchIndex
    rw [uint32_of_bounds map.capacity h1 h2]
  · unfold get_searchIndex
    rw [uint32_of_bounds map.capacity h1 h2]
    exact Nat.mod_lt _ (by omega)

/-- Witness for C7 at a concrete input: the negative key -1 on a
capacity-4 map maps to slot 4294967295 mod 4 = 3. -/
theorem C7_witness :
    1 ≤ (initmap 4).capacity ∧ (initmap 4).capacity ≤ 2 ^ 31 - 1 ∧
    (get_searchIndex (initmap 4) (-1) = put_searchIndex (initmap 4) (-1) ∧
      put_searchIndex (initmap 4) (-1) = del_searchIndex (initmap 4) (-1) ∧
      get_searchIndex (initmap 4) (-1) = uint32 (-1) % (initmap 4).capacity.toNat ∧
      get_searchIndex (initmap 4) (-1) < (initmap 4).capacity.toNat) ∧
    get_searchIndex (initmap 4) (-1) = 3 :=
  ⟨by decide, by decide,
    C7_index_unsigned_mod (initmap 4) (-1) (by decide) (by decide),
    by decide⟩

/-- C8: starting from a fresh map, `numOps` equals the number of completed
operations after any sequence of get/put/del calls, and each single
operation increments it exactly once regardless of outcome. -/
theorem C8_opcount_counts_operations (capacity : Int) (ops : List Op) :
    (runOps (initmap capacity) ops).numOps = ops.length ∧
    (∀ m : Map, ∀ key, (get m key).2.numOps = m.numOps + 1) ∧
    (∀ m : Map, ∀ key value, (put m key value).2.numOps = m.numOps + 1) ∧
    (∀ m : Map, ∀ key, (del m key).2.numOps = m.numOps + 1) := by
  refine ⟨?_, ?_, ?_, ?_⟩
  · rw [runOps_numOps]
    simp [initmap]
  · intro m key
    exact applyOp_numOps m (.get key)
  · intro m key value
    exact applyOp_numOps m (.put key value)
  · intro m key
    exact applyOp_numOps m (.del key)

/-- C9 counterexample: `initmap` performs no capacity validation — called
with capacity 0 it does not fail or reject but returns an ordinary map
record (with no usable slot), contradicting "construction fails". -/
theorem C9_counterexample :
    initmap 0 = { capacity := 0, table := [], size := 0, numOps := 0 } := rfl

/-- C9 amended: `initmap` accepts any capacity without validation.  It
always returns a map with the given capacity field, `size` 0 and `numOps`
0; for capacity ≤ 0 the table has no slots at all (the init loop never
runs, and every later operation is undefined), while for capacity ≥ 1 the
table has exactly `capacity` slots, all empty. -/
theorem C9_initmap_behaviour (capacity : Int) :
    (initmap capacity).capacity = capacity ∧
    (initmap capacity).size = 0 ∧
    (initmap capacity).numOps = 0 ∧
    (capacity ≤ 0 → (initmap capacity).table = []) ∧
    (1 ≤ capacity →
      (initmap capacity).table.length = capacity.toNat ∧
      ∀ chain ∈ (initmap capacity).table, chain = []) := by
  refine ⟨rfl, rfl, rfl, ?_, ?_⟩
  · intro hc
    unfold initmap
    dsimp only
    have hz : capacity.toNat = 0 := by omega
    rw [hz]
    rfl
  · intro hc
    refine ⟨by simp [initmap], ?_⟩
    intro chain hchain
    unfold initmap at hchain
    dsimp only at hchain
    exact List.eq_of_mem_replicate hchain

/-- Witness for C9 at concrete inputs: capacity -3 yields an empty table,
capacity 4 yields four slots. -/
theorem C9_witness :
    (initmap (-3)).table = [] ∧ (initmap 4).table.length = (4 : Int).toNat :=
  ⟨(C9_initmap_behaviour (-3)).2.2.2.1 (by decide),
    ((C9_initmap_behaviour 4).2.2.2.2 (by decide)).1⟩

/-- C10: `get` never modifies the map contents — the bucket table, `size`
and `capacity` are exactly as before the call, and only `numOps` changes,
by exactly one. -/
theorem C10_get_is_pure_reader (map : Map) (key : Int) :
    (get map key).2.table = map.table ∧
    (get map key).2.size = map.size ∧
    (get map key).2.capacity = map.capacity ∧
    (get map key).2.numOps = map.numOps + 1 :=
  ⟨rfl, rfl, rfl, rfl⟩

/-- C3: a second `put` of the same key returns the first value, a
subsequent `get` returns the second value, and the second `put` leaves
`size` unchanged — it overwrites in place and allocates nothing. -/
theorem C3_put_replacement (map : Map) (key v1 v2 : Int) (h : WF map) :
    (put (put map key v1).2 key v2).1 = v1 ∧
    (get (put (put map key v1).2 key v2).2 key).1 = v2 ∧
    (put (put map key v1).2 key v2).2.size = (put map key v1).2.size := by
  have hWF1 : WF (put map key v1).2 := WF_put map key v1 h
  have hlt : put_searchIndex map key < map.table.length := searchIndex_lt map key h
  have hidx : put_searchIndex (put map key v1).2 key = put_searchIndex map key := by
    unfold put_searchIndex
    rw [put_snd]
  have htab : (put map key v1).2.table
      = map.table.set (put_searchIndex map key)
        (putChain key v1 (map.table.getD (put_searchIndex map key) [])).2.1 := by
    rw [put_snd]
  have hchain : (put map key v1).2.table.getD (put_searchIndex (put map key v1).2 key) []
      = (putChain key v1 (map.table.getD (put_searchIndex map key) [])).2.1 := by
    rw [hidx, htab, getD_set_self _ _ _ _ hlt]
  refine ⟨?_, ?_, ?_⟩
  · rw [put_fst, hchain]
    exact getLoop_putChain key v1 _
  · exact get_after_put (put map key v1).2 key v2 hWF1
  · rw [put_snd ((put map key v1).2)]
    dsimp only
    have hmem : key ∈ chainKeys
        ((put map key v1).2.table.getD (put_searchIndex (put map key v1).2 key) []) := by
      rw [hchain]
      exact mem_chainKeys_putChain key v1 _
    have hflag : (putChain key v2
        ((put map key v1).2.table.getD (put_searchIndex (put map key v1).2 key) [])).2.2
        = false := by
      rcases Bool.eq_false_or_eq_true (putChain key v2
          ((put map key v1).2.table.getD (put_searchIndex (put map key v1).2 key) [])).2.2
        with hf | hf
      · exact absurd hmem ((putChain_flag key v2 _).mp hf)
      · exact hf
    rw [hflag, if_neg (by simp)]
    simp

/-- Witness for C3 at a concrete input: two puts of key 5 on a capacity-4
map. -/
theorem C3_witness :
    WF (initmap 4) ∧
    ((put (put (initmap 4) 5 100).2 5 200).1 = 100 ∧
      (get (put (put (initmap 4) 5 100).2 5 200).2 5).1 = 200 ∧
      (put (put (initmap 4) 5 100).2 5 200).2.size = (put (initmap 4) 5 100).2.size) :=
  ⟨⟨by decide, by decide, by decide⟩,
    C3_put_replacement (initmap 4) 5 100 200 ⟨by decide, by decide, by decide⟩⟩

/-- C4: after `put(map, k, v)`, `del(map, k)` returns v, a following
`get(map, k)` returns the sentinel, and `size` drops by exactly one —
whether the entry ends up at the chain head or mid-chain.  The bucket
chain the key lands in is assumed duplicate-free, as every reachable map
state guarantees. -/
theorem C4_put_del (map : Map) (key value : Int) (h : WF map)
    (hnd : (chainKeys (map.table.getD (put_searchIndex map key) [])).Nodup) :
    (del (put map key value).2 key).1 = value ∧
    (get (del (put map key value).2 key).2 key).1 = INT_MAX ∧
    (del (put map key value).2 key).2.size = (put map key value).2.size - 1 := by
  have hWF1 : WF (put map key value).2 := WF_put map key value h
  have hlt : put_searchIndex map key < map.table.length := searchIndex_lt map key h
  have hlt1 : del_searchIndex (put map key value).2 key
      < (put map key value).2.table.length := searchIndex_lt _ key hWF1
  have hidx : del_searchIndex (put map key value).2 key = put_searchIndex map key := by
    unfold del_searchIndex put_searchIndex
    rw [put_snd]
  have htab : (put map key value).2.table
      = map.table.set (put_searchIndex map key)
        (putChain key value (map.table.getD (put_searchIndex map key) [])).2.1 := by
    rw [put_snd]
  have hchain : (put map key value).2.table.getD
        (del_searchIndex (put map key value).2 key) []
      = (putChain key value (map.table.getD (put_searchIndex map key) [])).2.1 := by
    rw [hidx, htab, getD_set_self _ _ _ _ hlt]
  have hnd1 : (chainKeys
      (putChain key value (map.table.getD (put_searchIndex map key) [])).2.1).Nodup :=
    nodup_chainKeys_putChain key value _ hnd
  have hmem : key ∈ chainKeys
      (putChain key value (map.table.getD (put_searchIndex map key) [])).2.1 :=
    mem_chainKeys_putChain key value _
  cases hc1 : (putChain key value (map.table.getD (put_searchIndex map key) [])).2.1 with
  | nil =>
    rw [hc1] at hmem
    simp at hmem
  | cons b rest =>
    have hcd : (put map key value).2.table.getD
        (del_searchIndex (put map key value).2 key) [] = b :: rest := by
      rw [hchain, hc1]
    have hndc : (chainKeys (b :: rest)).Nodup := by rw [← hc1]; exact hnd1
    have hmemc : key ∈ chainKeys (b :: rest) := by rw [← hc1]; exact hmem
    by_cases hb : b.key = key
    · have hkne : key ∉ chainKeys rest := by
        simp only [chainKeys_cons] at hndc
        rw [← hb]
        exact (List.nodup_cons.mp hndc).1
      refine ⟨?_, ?_, ?_⟩
      · rw [del_fst, hchain]
        exact getLoop_putChain key value _
      · have hread : (del (put map key value).2 key).2.table.getD
            (get_searchIndex (del (put map key value).2 key).2 key) [] = rest := by
          rw [del_snd_head _ key b rest hcd hb]
          exact getD_set_self _ _ _ _ hlt1
        rw [get_fst, hread]
        exact getLoop_eq_of_not_mem key rest hkne
      · rw [del_snd_head _ key b rest hcd hb]
    · have hkeyrest : key ∈ chainKeys rest := by
        simp only [chainKeys_cons, List.mem_cons] at hmemc
        rcases hmemc with hx | hx
        · exact absurd hx.symm hb
        · exact hx
      have hflag : (delLoop key b rest).2.2 = true :=
        (delLoop_flag key b rest).mpr hkeyrest
      have hrestnd : (chainKeys rest).Nodup := by
        simp only [chainKeys_cons] at hndc
        exact (List.nodup_cons.mp hndc).2
      have hknotin : key ∉ chainKeys (delLoop key b rest).2.1 := by
        rw [chainKeys_delLoop]
        simp only [List.mem_cons]
        push_neg
        exact ⟨fun hx => hb hx.symm, hrestnd.not_mem_erase⟩
      refine ⟨?_, ?_, ?_⟩
      · rw [del_fst, hchain]
        exact getLoop_putChain key value _
      · have hread : (del (put map key value).2 key).2.table.getD
            (get_searchIndex (del (put map key value).2 key).2 key) []
            = (delLoop key b rest).2.1 := by
          rw [del_snd_tail _ key b rest hcd hb]
          exact getD_set_self _ _ _ _ hlt1
        rw [get_fst, hread]
        exact getLoop_eq_of_not_mem key _ hknotin
      · rw [del_snd_tail _ key b rest hcd hb]
        dsimp only
        rw [hflag, if_pos rfl]

/-- Witness for C4 at a concrete input: `put(5,100)` then `del(5)` on a
capacity-4 map. -/
theorem C4_witness :
    (WF (initmap 4) ∧
      (chainKeys ((initmap 4).table.getD (put_searchIndex (initmap 4) 5) [])).Nodup) ∧
    ((del (put (initmap 4) 5 100).2 5).1 = 100 ∧
      (get (del (put (initmap 4) 5 100).2 5).2 5).1 = INT_MAX ∧
      (del (put (initmap 4) 5 100).2 5).2.size = (put (initmap 4) 5 100).2.size - 1) :=
  ⟨⟨⟨by decide, by decide, by decide⟩, by decide⟩,
    C4_put_del (initmap 4) 5 100 ⟨by decide, by decide, by decide⟩ (by decide)⟩

/-- C5: in every state reachable from a fresh map by any sequence of
operations, the table keeps its `capacity` slots, every stored entry sits
in the chain at the index given by the unsigned reinterpretation of its
key mod capacity, no chain repeats a key, `size` counts all reachable
entries — and consequently a key resides in at most one chain. -/
theorem C5_reachable_state_invariant (capacity : Int) (ops : List Op)
    (h1 : 1 ≤ capacity) (h2 : capacity ≤ 2 ^ 31 - 1) :
    Inv (runOps (initmap capacity) ops) ∧
    (∀ i j, i < (runOps (initmap capacity) ops).table.length →
      j < (runOps (initmap capacity) ops).table.length →
      ∀ k, k ∈ chainKeys ((runOps (initmap capacity) ops).table.getD i []) →
        k ∈ chainKeys ((runOps (initmap capacity) ops).table.getD j []) →
        i = j) := by
  have hInv : Inv (runOps (initmap capacity) ops) :=
    Inv_runOps (initmap capacity) ops h1 h2 (Inv_initmap capacity)
  refine ⟨hInv, ?_⟩
  obtain ⟨hlen, hhash, hnd, hsize⟩ := hInv
  intro i j hi hj k hki hkj
  obtain ⟨e, he, hek⟩ := List.mem_map.mp hki
  obtain ⟨f, hf2, hfk⟩ := List.mem_map.mp hkj
  have hie := hhash i hi e he
  have hjf := hhash j hj f hf2
  rw [hek] at hie
  rw [hfk] at hjf
  rw [← hie, ← hjf]

/-- Witness for C5 at a concrete input: the spec example sequence on a
capacity-4 map. -/
theorem C5_witness :
    (1 : Int) ≤ 4 ∧ (4 : Int) ≤ 2 ^ 31 - 1 ∧
    (Inv (runOps (initmap 4) [.put 5 100, .put 9 200, .del 5]) ∧
      (∀ i j, i < (runOps (initmap 4) [.put 5 100, .put 9 200, .del 5]).table.length →
        j < (runOps (initmap 4) [.put 5 100, .put 9 200, .del 5]).table.length →
        ∀ k, k ∈ chainKeys
            ((runOps (initmap 4) [.put 5 100, .put 9 200, .del 5]).table.getD i []) →
          k ∈ chainKeys
            ((runOps (initmap 4) [.put 5 100, .put 9 200, .del 5]).table.getD j []) →
          i = j)) :=
  ⟨by decide, by decide,
    C5_reachable_state_invariant 4 [.put 5 100, .put 9 200, .del 5]
      (by decide) (by decide)⟩

/-- C6: deleting a key absent from every chain returns the sentinel and
leaves `size` unchanged — both when the key's bucket is empty and when
its chain is non-empty without the key. -/
theorem C6_del_absent (map : Map) (key : Int) (h : WF map)
    (habs : ∀ chain ∈ map.table, key ∉ chainKeys chain) :
    (del map key).1 = INT_MAX ∧ (del map key).2.size = map.size := by
  have hlt : del_searchIndex map key < map.table.length := searchIndex_lt map key h
  have hnotin : key ∉ chainKeys (map.table.getD (del_searchIndex map key) []) :=
    habs _ (getD_mem _ _ _ hlt)
  constructor
  · rw [del_fst]
    exact getLoop_eq_of_not_mem key _ hnotin
  · cases hc : map.table.getD (del_searchIndex map key) [] with
    | nil => rw [del_snd_nil map key hc]
    | cons bucket rest =>
      rw [hc] at hnotin
      simp only [chainKeys_cons, List.mem_cons] at hnotin
      push_neg at hnotin
      have hb : ¬ bucket.key = key := fun hh => hnotin.1 hh.symm
      rw [del_snd_tail map key bucket rest hc hb]
      dsimp only
      have hflag : (delLoop key bucket rest).2.2 = false := by
        rcases Bool.eq_false_or_eq_true ((delLoop key bucket rest).2.2) with hf | hf
        · exact absurd ((delLoop_flag key bucket rest).mp hf) hnotin.2
        · exact hf
      rw [hflag, if_neg (by simp)]
      simp

/-- Witness for C6 at a concrete input: deleting key 7 from a capacity-4
map that stores only key 5 (bucket 3 empty for key 7 is not the case here:
7 lands in the non-empty bucket of no entry — and the hypotheses are
discharged concretely). -/
theorem C6_witness :
    (WF (put (initmap 4) 5 100).2 ∧
      (∀ chain ∈ (put (initmap 4) 5 100).2.table, (7 : Int) ∉ chainKeys chain)) ∧
    ((del (put (initmap 4) 5 100).2 7).1 = INT_MAX ∧
      (del (put (initmap 4) 5 100).2 7).2.size = (put (initmap 4) 5 100).2.size) :=
  ⟨⟨⟨by decide, by decide, by decide⟩, by decide⟩,
    C6_del_absent (put (initmap 4) 5 100).2 7
      ⟨by decide, by decide, by decide⟩ (by decide)⟩

end TsHashmap
